import Mathlib

/-!
# Verification of the MovieLens two-stage recommender pipeline

A shallow embedding, in Lean 4, of the three numeric/algorithmic cores of the
pipeline:

* `src/01_build_mf.py` — pruning of raw interactions, dense index maps, and the
  sparse confidence matrix (`build_confidence`, consumed through `tocsr`, which
  sums duplicate COO coordinates);
* `src/05_build_features.py` — the labeled-example sampler (`make_row`,
  `sample_easy_neg`, and the per-user main loop);
* `src/06_train_lgbm.py` — the ranking evaluation (`eval_metrics`, `_dcg`).

Modelling conventions:

* pandas/NumPy floats are modelled as `ℚ`; ids and timestamps as `ℤ`.
* `np.random.Generator` is modelled as a stream `ℕ → ℕ` of draws together with
  a cursor that is threaded sequentially through the computation; a fixed seed
  determines the stream, so "same seed" is modelled as "same stream".
  `rng.choice(pool, 1)` (no weight argument) picks the entry of `pool` at the
  drawn index — a uniform choice over the entries of `pool`.
* the unbounded `while` loop of `sample_easy_neg` is modelled with explicit
  fuel; `none` means the loop has not finished within the given number of
  iterations (the source loop has no bound of its own).
* operations that can raise in Python (NumPy broadcasting, failed astype)
  return `Except`/`Option`.
* `np.argsort` (ascending) is modelled as the sort of the index range by the
  lexicographic key (value, index), i.e. the stable ascending argsort.  NumPy's
  default introsort coincides with this stable order on the small arrays
  (fewer than 16 entries) used in every tie-sensitive statement below.
* pandas `groupby(key)` iterates groups by ascending key, each group keeping
  the original row order; `Series.unique` / `drop_duplicates` keep first
  occurrences; `value_counts` lists the distinct values by descending count.
-/

/-! ## List helpers: insertion sort, first-occurrence dedup, groupby -/

/-- Insert `x` into `l` before the first element `y` with `le x y = true`. -/
def insertS {α : Type} (le : α → α → Bool) (x : α) : List α → List α
  | [] => [x]
  | y :: ys => if le x y then x :: y :: ys else y :: insertS le x ys

/-- Insertion sort by the boolean relation `le` (a stable sort). -/
def isort {α : Type} (le : α → α → Bool) : List α → List α
  | [] => []
  | x :: xs => insertS le x (isort le xs)

theorem insertS_perm {α : Type} (le : α → α → Bool) (x : α) (l : List α) :
    (insertS le x l).Perm (x :: l) := by
  induction l with
  | nil => exact List.Perm.refl _
  | cons y ys ih =>
    by_cases h : le x y = true
    · simp [insertS, h]
    · simp only [insertS, h, if_neg, Bool.not_eq_true]
      exact (List.Perm.cons y ih).trans (List.Perm.swap x y ys)

theorem isort_perm {α : Type} (le : α → α → Bool) (l : List α) :
    (isort le l).Perm l := by
  induction l with
  | nil => exact List.Perm.refl _
  | cons x xs ih =>
    exact (insertS_perm le x (isort le xs)).trans (List.Perm.cons x ih)

theorem mem_isort {α : Type} {le : α → α → Bool} {a : α} {l : List α} :
    a ∈ isort le l ↔ a ∈ l :=
  (isort_perm le l).mem_iff

theorem mem_insertS {α : Type} {le : α → α → Bool} {a x : α} {l : List α} :
    a ∈ insertS le x l ↔ a = x ∨ a ∈ l := by
  rw [(insertS_perm le x l).mem_iff, List.mem_cons]

theorem insertS_pairwise {α : Type} {le : α → α → Bool}
    (htrans : ∀ a b c, le a b = true → le b c = true → le a c = true)
    (htotal : ∀ a b, le a b = true ∨ le b a = true)
    {x : α} {l : List α} (hl : List.Pairwise (fun a b => le a b = true) l) :
    List.Pairwise (fun a b => le a b = true) (insertS le x l) := by
  induction l with
  | nil => simp [insertS]
  | cons y ys ih =>
    rcases List.pairwise_cons.mp hl with ⟨hy, hys⟩
    by_cases h : le x y = true
    · simp only [insertS, h, if_pos]
      refine List.pairwise_cons.mpr ⟨?_, hl⟩
      intro z hz
      rcases List.mem_cons.mp hz with rfl | hz
      · exact h
      · exact htrans x y z h (hy z hz)
    · have hyx : le y x = true := (htotal x y).resolve_left h
      simp only [insertS, h, if_neg, Bool.not_eq_true]
      refine List.pairwise_cons.mpr ⟨?_, ih hys⟩
      intro z hz
      rcases mem_insertS.mp hz with rfl | hz
      · exact hyx
      · exact hy z hz

theorem isort_pairwise {α : Type} {le : α → α → Bool}
    (htrans : ∀ a b c, le a b = true → le b c = true → le a c = true)
    (htotal : ∀ a b, le a b = true ∨ le b a = true) (l : List α) :
    List.Pairwise (fun a b => le a b = true) (isort le l) := by
  induction l with
  | nil => simp [isort]
  | cons x xs ih => exact insertS_pairwise htrans htotal ih

/-- Keep the first occurrence of every value, in order of first appearance
(`pandas.Series.unique` / `drop_duplicates`). -/
def uniqueFirstGo : List ℤ → List ℤ → List ℤ
  | [], _ => []
  | x :: xs, seen => if x ∈ seen then uniqueFirstGo xs seen
                     else x :: uniqueFirstGo xs (x :: seen)

def uniqueFirst (l : List ℤ) : List ℤ := uniqueFirstGo l []

theorem mem_uniqueFirstGo {a : ℤ} : ∀ {l seen : List ℤ},
    a ∈ uniqueFirstGo l seen ↔ a ∈ l ∧ a ∉ seen := by
  intro l
  induction l with
  | nil => simp [uniqueFirstGo]
  | cons x xs ih =>
    intro seen
    by_cases hx : x ∈ seen
    · simp only [uniqueFirstGo, hx, if_pos, ih, List.mem_cons]
      constructor
      · rintro ⟨h1, h2⟩; exact ⟨Or.inr h1, h2⟩
      · rintro ⟨h1 | h1, h2⟩
        · exact absurd (h1 ▸ hx) h2
        · exact ⟨h1, h2⟩
    · simp only [uniqueFirstGo, hx, if_neg, List.mem_cons, ih,
        not_false_iff]
      constructor
      · rintro (rfl | ⟨h1, h2⟩)
        · exact ⟨Or.inl rfl, hx⟩
        · exact ⟨Or.inr h1, fun hs => h2 (Or.inr hs)⟩
      · rintro ⟨rfl | h1, h2⟩
        · exact Or.inl rfl
        · by_cases hax : a = x
          · exact Or.inl hax
          · exact Or.inr ⟨h1, fun hs => hs.elim hax h2⟩

theorem mem_uniqueFirst {a : ℤ} {l : List ℤ} : a ∈ uniqueFirst l ↔ a ∈ l := by
  unfold uniqueFirst
  rw [mem_uniqueFirstGo]
  simp

/-- pandas `df.groupby(key)`: groups listed by ascending key, each group the
subsequence of rows carrying that key. -/
def groupByKey {α : Type} (key : α → ℤ) (l : List α) : List (ℤ × List α) :=
  (isort (fun a b => decide (a ≤ b)) (uniqueFirst (l.map key))).map
    (fun u => (u, l.filter (fun x => key x == u)))

theorem groupByKey_keys_pairwise {α : Type} (key : α → ℤ) (l : List α) :
    List.Pairwise (fun a b : ℤ × List α => a.1 ≤ b.1) (groupByKey key l) := by
  unfold groupByKey
  rw [List.pairwise_map]
  have h := @isort_pairwise ℤ (fun a b : ℤ => decide (a ≤ b))
    (by intro a b c hab hbc
        exact decide_eq_true_eq.mpr
          (le_trans (of_decide_eq_true hab) (of_decide_eq_true hbc)))
    (by intro a b
        rcases le_total a b with h | h
        · exact Or.inl (decide_eq_true_eq.mpr h)
        · exact Or.inr (decide_eq_true_eq.mpr h))
    (uniqueFirst (l.map key))
  exact h.imp (fun hab => of_decide_eq_true hab)

/-! ## `src/01_build_mf.py`: pruning, index maps, confidence matrix -/

/-- One row of the ratings CSV consumed by `01_build_mf.py`
(`userId, movieId, rating`). -/
structure Interaction where
  userId : ℤ
  movieId : ℤ
  rating : ℚ
  deriving DecidableEq

/-- `ratings["userId"].value_counts()[u]`: number of raw interactions of `u`. -/
def countUser (rs : List Interaction) (u : ℤ) : ℕ :=
  rs.countP (fun t => t.userId == u)

/-- `ratings["movieId"].value_counts()[i]` over the given interaction list. -/
def countItem (rs : List Interaction) (i : ℤ) : ℕ :=
  rs.countP (fun t => t.movieId == i)

/-- Step 2a of `main`: when `min_user_cnt > 0`, keep interactions whose user
has at least `minU` interactions in `rs` itself. -/
def pruneUsers (rs : List Interaction) (minU : ℕ) : List Interaction :=
  if 0 < minU then rs.filter (fun t => decide (minU ≤ countUser rs t.userId))
  else rs

/-- Step 2b of `main`: when `min_item_cnt > 0`, keep interactions whose item
has at least `minI` interactions in `rs` itself (the code applies this to the
already user-pruned list). -/
def pruneItems (rs : List Interaction) (minI : ℕ) : List Interaction :=
  if 0 < minI then rs.filter (fun t => decide (minI ≤ countItem rs t.movieId))
  else rs

/-- `movies.drop_duplicates("id")`: the fixed item index space, in metadata
order with first occurrences kept. -/
def allItemIdsOf (metaIds : List ℤ) : List ℤ := uniqueFirst metaIds

/-- Steps 2a–2c of `main`: user pruning on the raw list, then item pruning on
the user-pruned list, then the restriction to items of the metadata index. -/
def keptRatings (raw : List Interaction) (minU minI : ℕ)
    (allItemIds : List ℤ) : List Interaction :=
  (pruneItems (pruneUsers raw minU) minI).filter
    (fun t => decide (t.movieId ∈ allItemIds))

/-- `ratings["userId"].unique()` on the surviving interactions
(first-appearance order). -/
def userIdsOf (kept : List Interaction) : List ℤ :=
  uniqueFirst (kept.map (fun t => t.userId))

/-- `user2row`: dense row of a user, `none` when the user was pruned away. -/
def user2row (kept : List Interaction) : ℤ → Option ℕ :=
  fun u => (userIdsOf kept).findIdx? (fun v => v == u)

/-- `item2col`: dense column of an item in the fixed metadata order. -/
def item2col (metaIds : List ℤ) : ℤ → Option ℕ :=
  fun i => (allItemIdsOf metaIds).findIdx? (fun v => v == i)

/-- One COO triple of `build_confidence`: `(row, col, 1 + alpha * rating)`;
`none` models the `ValueError` that `.astype(np.int32)` raises when a map
lookup produced `NaN`. -/
def toEntry (u2r i2c : ℤ → Option ℕ) (alpha : ℚ) (t : Interaction) :
    Option (ℕ × ℕ × ℚ) := do
  let r ← u2r t.userId
  let c ← i2c t.movieId
  pure (r, c, 1 + alpha * t.rating)

/-- Total version of `toEntry` used to describe the successful case. -/
def entryValD (u2r i2c : ℤ → Option ℕ) (alpha : ℚ) (t : Interaction) :
    ℕ × ℕ × ℚ :=
  ((u2r t.userId).getD 0, (i2c t.movieId).getD 0, 1 + alpha * t.rating)

/-- Option-valued traversal: `some` of all results, or `none` as soon as one
element fails (the whole vectorized pandas expression raises together). -/
def traverseOpt {α β : Type} (f : α → Option β) : List α → Option (List β)
  | [] => some []
  | x :: xs =>
    match f x, traverseOpt f xs with
    | some y, some ys => some (y :: ys)
    | _, _ => none

/-- `build_confidence`: the COO triple list `(rows, cols, vals)` built from the
surviving interactions. -/
def build_confidence (rs : List Interaction) (u2r i2c : ℤ → Option ℕ)
    (alpha : ℚ) : Option (List (ℕ × ℕ × ℚ)) :=
  traverseOpt (toEntry u2r i2c alpha) rs

/-- Value of the assembled matrix at `(r, c)`: `C.tocsr()` sums every COO
triple landing on the same coordinate, and coordinates with no triple are the
implicit sparse zero. -/
def matVal (entries : List (ℕ × ℕ × ℚ)) (r c : ℕ) : ℚ :=
  ((entries.filter (fun e => decide (e.1 = r ∧ e.2.1 = c))).map
    (fun e => e.2.2)).sum

theorem findIdx?_isSome_of_mem {u : ℤ} :
    ∀ {l : List ℤ}, u ∈ l → ∃ k, l.findIdx? (fun v => v == u) = some k := by
  intro l
  induction l with
  | nil => intro h; cases h
  | cons x xs ih =>
    intro h
    by_cases hx : (x == u) = true
    · exact ⟨0, by simp [List.findIdx?_cons, hx]⟩
    · rcases List.mem_cons.mp h with rfl | h
      · simp at hx
      · rcases ih h with ⟨k, hk⟩
        exact ⟨k + 1, by simp [List.findIdx?_cons, hx, hk]⟩

theorem traverseOpt_eq_some {α β : Type} (f : α → Option β) (g : α → β) :
    ∀ l : List α, (∀ t ∈ l, f t = some (g t)) →
      traverseOpt f l = some (l.map g) := by
  intro l
  induction l with
  | nil => intro _; rfl
  | cons x xs ih =>
    intro h
    have hx := h x (List.mem_cons_self x xs)
    have hxs := ih (fun t ht => h t (List.mem_cons_of_mem x ht))
    simp [traverseOpt, hx, hxs]

theorem filter_map_comm {α β : Type} (f : α → β) (p : β → Bool) :
    ∀ l : List α, (l.map f).filter p = (l.filter (fun a => p (f a))).map f := by
  intro l
  induction l with
  | nil => rfl
  | cons x xs ih =>
    by_cases hx : p (f x) = true
    · simp [List.filter_cons, hx, ih]
    · simp only [Bool.not_eq_true] at hx
      simp [List.filter_cons, hx, ih]

theorem user2row_some_of_mem {kept : List Interaction} {t : Interaction}
    (ht : t ∈ kept) : ∃ k, user2row kept t.userId = some k := by
  have hmem : t.userId ∈ userIdsOf kept :=
    mem_uniqueFirst.mpr (List.mem_map_of_mem (fun t => t.userId) ht)
  exact findIdx?_isSome_of_mem hmem

theorem item2col_some_of_mem {metaIds : List ℤ} {i : ℤ}
    (hi : i ∈ allItemIdsOf metaIds) : ∃ k, item2col metaIds i = some k :=
  findIdx?_isSome_of_mem hi

theorem keptRatings_movieId_mem {raw : List Interaction} {minU minI : ℕ}
    {allItemIds : List ℤ} {t : Interaction}
    (ht : t ∈ keptRatings raw minU minI allItemIds) :
    t.movieId ∈ allItemIds := by
  unfold keptRatings at ht
  exact of_decide_eq_true (List.mem_filter.mp ht).2

theorem matVal_nil (r c : ℕ) : matVal [] r c = 0 := rfl

theorem matVal_cons (e : ℕ × ℕ × ℚ) (es : List (ℕ × ℕ × ℚ)) (r c : ℕ) :
    matVal (e :: es) r c =
      (if e.1 = r ∧ e.2.1 = c then e.2.2 else 0) + matVal es r c := by
  by_cases h : e.1 = r ∧ e.2.1 = c
  · simp [matVal, List.filter_cons, h]
  · simp [matVal, List.filter_cons, h]

theorem matVal_map_entry (u2r i2c : ℤ → Option ℕ) (alpha : ℚ) (r c : ℕ) :
    ∀ kept : List Interaction,
      (∀ t ∈ kept, ∃ k, u2r t.userId = some k) →
      (∀ t ∈ kept, ∃ k, i2c t.movieId = some k) →
      matVal (kept.map (entryValD u2r i2c alpha)) r c =
        ((kept.filter (fun t => decide
            (u2r t.userId = some r ∧ i2c t.movieId = some c))).map
          (fun t => 1 + alpha * t.rating)).sum := by
  intro kept
  induction kept with
  | nil => intro _ _; rfl
  | cons t ts ih =>
    intro hu hi
    obtain ⟨ku, hku⟩ := hu t (List.mem_cons_self t ts)
    obtain ⟨kc, hkc⟩ := hi t (List.mem_cons_self t ts)
    have ihh := ih (fun s hs => hu s (List.mem_cons_of_mem t hs))
      (fun s hs => hi s (List.mem_cons_of_mem t hs))
    rw [List.map_cons, matVal_cons, ihh, List.filter_cons]
    by_cases h : ku = r ∧ kc = c
    · have hcond : (u2r t.userId = some r ∧ i2c t.movieId = some c) := by
        rw [hku, hkc, h.1, h.2]; exact ⟨rfl, rfl⟩
      have hcond2 : (entryValD u2r i2c alpha t).1 = r ∧
          (entryValD u2r i2c alpha t).2.1 = c := by
        simp [entryValD, hku, hkc, h.1, h.2]
      simp [hcond, hcond2, entryValD, hkc]
    · have hcond : ¬ (u2r t.userId = some r ∧ i2c t.movieId = some c) := by
        rw [hku, hkc]
        intro hc
        exact h ⟨Option.some_injective ℕ hc.1, Option.some_injective ℕ hc.2⟩
      have hcond2 : ¬ ((entryValD u2r i2c alpha t).1 = r ∧
          (entryValD u2r i2c alpha t).2.1 = c) := by
        simp only [entryValD, hku, hkc, Option.getD_some]
        exact h
      simp [hcond, hcond2]

/-- C7: in the assembled confidence matrix — the COO triples of
`build_confidence`, read through `C.tocsr()`, which sums the values of
duplicate coordinates — the cell `(r, c)` equals the sum of
`1 + alpha * rating` over exactly the surviving interactions whose user maps
to row `r` and whose item maps to column `c`.  When no surviving interaction
maps to `(r, c)` the filtered list is empty and the cell is the empty sum `0`,
the implicit sparse zero. -/
theorem C7_confidence_cell_is_sum (raw : List Interaction) (metaIds : List ℤ)
    (minU minI : ℕ) (alpha : ℚ) (r c : ℕ) :
    ∃ entries,
      build_confidence (keptRatings raw minU minI (allItemIdsOf metaIds))
          (user2row (keptRatings raw minU minI (allItemIdsOf metaIds)))
          (item2col metaIds) alpha = some entries ∧
      matVal entries r c =
        (((keptRatings raw minU minI (allItemIdsOf metaIds)).filter
            (fun t => decide
              (user2row (keptRatings raw minU minI (allItemIdsOf metaIds))
                  t.userId = some r ∧
               item2col metaIds t.movieId = some c))).map
          (fun t => 1 + alpha * t.rating)).sum := by
  set kept := keptRatings raw minU minI (allItemIdsOf metaIds) with hk
  have hu : ∀ t ∈ kept, ∃ k, user2row kept t.userId = some k :=
    fun t ht => user2row_some_of_mem ht
  have hi : ∀ t ∈ kept, ∃ k, item2col metaIds t.movieId = some k :=
    fun t ht => item2col_some_of_mem (keptRatings_movieId_mem (hk ▸ ht))
  have hsome : ∀ t ∈ kept,
      toEntry (user2row kept) (item2col metaIds) alpha t =
        some (entryValD (user2row kept) (item2col metaIds) alpha t) := by
    intro t ht
    obtain ⟨ku, hku⟩ := hu t ht
    obtain ⟨kc, hkc⟩ := hi t ht
    simp [toEntry, entryValD, hku, hkc]
  exact ⟨kept.map (entryValD (user2row kept) (item2col metaIds) alpha),
    traverseOpt_eq_some _ _ kept hsome,
    matVal_map_entry (user2row kept) (item2col metaIds) alpha r c kept hu hi⟩

theorem mem_pruneUsers {raw : List Interaction} {minU : ℕ} {t : Interaction} :
    t ∈ pruneUsers raw minU ↔
      t ∈ raw ∧ (minU = 0 ∨ minU ≤ countUser raw t.userId) := by
  unfold pruneUsers
  by_cases hU : 0 < minU
  · simp only [if_pos hU, List.mem_filter, decide_eq_true_eq]
    constructor
    · rintro ⟨h1, h2⟩; exact ⟨h1, Or.inr h2⟩
    · rintro ⟨h1, h2⟩; exact ⟨h1, h2.resolve_left (by omega)⟩
  · have h0 : minU = 0 := by omega
    simp [if_neg hU, h0]

theorem mem_pruneItems {rs : List Interaction} {minI : ℕ} {t : Interaction} :
    t ∈ pruneItems rs minI ↔
      t ∈ rs ∧ (minI = 0 ∨ minI ≤ countItem rs t.movieId) := by
  unfold pruneItems
  by_cases hI : 0 < minI
  · simp only [if_pos hI, List.mem_filter, decide_eq_true_eq]
    constructor
    · rintro ⟨h1, h2⟩; exact ⟨h1, Or.inr h2⟩
    · rintro ⟨h1, h2⟩; exact ⟨h1, h2.resolve_left (by omega)⟩
  · have h0 : minI = 0 := by omega
    simp [if_neg hI, h0]

/-- C8 counterexample: with `minUserCount = minItemCount = 2`, the interaction
`(user 1, item 10)` has a user with 2 raw interactions and an item with 2 raw
interactions (and item 10 is in the metadata index), so under the claim's
rule — both counts taken independently over the raw set — it is kept; yet the
code drops every interaction of this input, because item counts are
recomputed after user pruning (user 2's interaction with item 10 is pruned
away, so item 10's surviving count is 1 < 2). -/
theorem C8_counterexample :
    keptRatings [⟨1, 10, 5⟩, ⟨1, 20, 5⟩, ⟨2, 10, 5⟩] 2 2
        (allItemIdsOf [10, 20]) = [] ∧
    2 ≤ countUser [⟨1, 10, 5⟩, ⟨1, 20, 5⟩, ⟨2, 10, 5⟩] 1 ∧
    2 ≤ countItem [⟨1, 10, 5⟩, ⟨1, 20, 5⟩, ⟨2, 10, 5⟩] 10 ∧
    (10 : ℤ) ∈ allItemIdsOf [10, 20] := by
  refine ⟨rfl, ?_, ?_, ?_⟩ <;> decide

/-- C8 amended: an interaction survives iff its user has at least
`minUserCount` interactions in the raw set (when that threshold is positive),
its item has at least `minItemCount` interactions in the **user-pruned** set
(when that threshold is positive) — the item count is taken after user
pruning, not independently over the raw set — and its item lies in the fixed
metadata index.  Pruning is this single pass, performed before any dense
index is assigned. -/
theorem C8_kept_iff (raw : List Interaction) (minU minI : ℕ)
    (metaIds : List ℤ) (t : Interaction) :
    t ∈ keptRatings raw minU minI (allItemIdsOf metaIds) ↔
      t ∈ raw ∧ (minU = 0 ∨ minU ≤ countUser raw t.userId) ∧
        (minI = 0 ∨ minI ≤ countItem (pruneUsers raw minU) t.movieId) ∧
        t.movieId ∈ allItemIdsOf metaIds := by
  unfold keptRatings
  rw [List.mem_filter, mem_pruneItems, mem_pruneUsers]
  simp only [decide_eq_true_eq]
  tauto

/-! ## `src/05_build_features.py`: the labeled-example sampler

The sampler embedding below applies `make_row` to the four parameters of its
`def make_row(uid, item, label, meta)` signature.  The source's two call sites
(`make_row(uid, it, 1, meta, ts)` at the positive loop and
`make_row(uid, it, 0, meta, None)` at the negative loop) pass a fifth
positional argument left over from the disabled recency feature, which that
signature rejects with a `TypeError`; this arity fault is recorded separately
(claim C2, `make_row_paramCount`/`make_row_callArgCount` below), and the
structural claims about the sampler are settled against the sampling logic
with `make_row` applied to its declared parameters. -/

/-- One metadata record of `movies_processed.csv` (indexed by `id`). -/
structure MovieMeta where
  runtime_z : ℚ
  lang_idx : ℚ
  popularity : ℚ
  vote_avg : ℚ
  vote_cnt : ℚ
  deriving DecidableEq

/-- One row of the split's ratings CSV (`userId,movieId,rating,timestamp`). -/
structure RatingEvent where
  userId : ℤ
  movieId : ℤ
  rating : ℚ
  timestamp : ℤ
  deriving DecidableEq

/-- One output feature row (the dict built by `make_row`). -/
structure FeatureRow where
  userId : ℤ
  movieId : ℤ
  label : ℕ
  runtime_z : ℚ
  lang_idx : ℚ
  popularity : ℚ
  vote_avg : ℚ
  vote_cnt : ℚ
  deriving DecidableEq

/-- `make_row(uid, item, label, meta)`: `None` when metadata is missing, else
the feature dict for the (user, item) pair. -/
def make_row (uid item : ℤ) (label : ℕ) (meta : Option MovieMeta) :
    Option FeatureRow :=
  match meta with
  | none => none
  | some m =>
    some ⟨uid, item, label, m.runtime_z, m.lang_idx, m.popularity,
      m.vote_avg, m.vote_cnt⟩

/-- Number of parameters of `def make_row(uid, item, label, meta)`. -/
def make_row_paramCount : ℕ := 4

/-- Number of positional arguments at both call sites in `main`
(`uid, it, label, meta, ts`/`None`). -/
def make_row_callArgCount : ℕ := 5

/-- A Python call to a function with only plain positional parameters (no
defaults, no varargs — `make_row`'s signature) binds iff the argument count
equals the parameter count; otherwise the call raises `TypeError`. -/
def pythonCallBinds (paramCount argCount : ℕ) : Bool :=
  paramCount == argCount

/-- `movies.index` (the ids of the metadata table, in order). -/
def moviesIndex (movies : List (ℤ × MovieMeta)) : List ℤ :=
  movies.map Prod.fst

/-- `movies.loc[it]` as an optional record (first matching id). -/
def lookupMeta (movies : List (ℤ × MovieMeta)) (it : ℤ) : Option MovieMeta :=
  (movies.find? (fun p => p.1 == it)).map Prod.snd

/-- `int(rng.choice(pop_items, 1)[0])`: one uniform draw over the entries of
`pop_items`, taking the next value of the stream as the drawn index. -/
def choiceOne (pool : List ℤ) (r : ℕ) : ℤ :=
  pool.getD (r % pool.length) 0

/-- The `while len(out) < n` rejection loop of `sample_easy_neg`, with fuel.
Returns `(out, seen, cursor)`; `none` means the loop did not finish within
`fuel` iterations (the source loop is unbounded). -/
def sampleEasyNegGo (pool : List ℤ) (n : ℕ) (stream : ℕ → ℕ) :
    ℕ → List ℤ → List ℤ → ℕ → Option (List ℤ × List ℤ × ℕ)
  | 0, out, seen, pos =>
    if n ≤ out.length then some (out, seen, pos) else none
  | fuel + 1, out, seen, pos =>
    if n ≤ out.length then some (out, seen, pos)
    else
      let item := choiceOne pool (stream pos)
      if item ∈ seen then sampleEasyNegGo pool n stream fuel out seen (pos + 1)
      else sampleEasyNegGo pool n stream fuel (out ++ [item]) (item :: seen)
        (pos + 1)

/-- `sample_easy_neg(seen, pop_items, n, rng)`: returns `[]` at once when
`n == 0` or the pool is empty, else runs the rejection loop. -/
def sample_easy_neg (fuel : ℕ) (seen pop_items : List ℤ) (n : ℕ)
    (stream : ℕ → ℕ) (pos : ℕ) : Option (List ℤ × List ℤ × ℕ) :=
  if n = 0 ∨ pop_items = [] then some ([], seen, pos)
  else sampleEasyNegGo pop_items n stream fuel [] seen pos

/-- The sampler's configuration surface (`--hard-neg`, `--easy-neg`,
`--pos-thresh`). -/
structure SamplerCfg where
  hardNeg : ℕ
  easyNeg : ℕ
  posThresh : ℚ

/-- `[i for i in cand_map.get(uid, []) if i not in seen_items and
i in movies.index][:hard_neg]`. -/
def hardNegOf (cands seen idx : List ℤ) (hn : ℕ) : List ℤ :=
  (cands.filter (fun i => decide (i ∉ seen ∧ i ∈ idx))).take hn

/-- Lines 135–154 of `main`: hard negatives from the candidate list, easy
negatives via `sample_easy_neg(seen_items.copy(), …)` (the copy excludes only
rated items — hard negatives are never added to it), metadata filter on the
easy draws, and the 1-draw fallback when both lists are empty.  Returns
`(hard, easy, cursor)`. -/
def userNegs (fuel : ℕ) (movies : List (ℤ × MovieMeta)) (pool : List ℤ)
    (cfg : SamplerCfg) (cands seen : List ℤ) (stream : ℕ → ℕ) (pos : ℕ) :
    Option (List ℤ × List ℤ × ℕ) :=
  let hard := hardNegOf cands seen (moviesIndex movies) cfg.hardNeg
  match sample_easy_neg fuel seen pool cfg.easyNeg stream pos with
  | none => none
  | some (ids, _, pos1) =>
    let easy := ids.filter (fun i => decide (i ∈ moviesIndex movies))
    if hard.isEmpty && easy.isEmpty then
      match sample_easy_neg fuel seen pool 1 stream pos1 with
      | none => none
      | some (fids, _, pos2) =>
        some (hard, fids.filter (fun i => decide (i ∈ moviesIndex movies)),
          pos2)
    else some (hard, easy, pos1)

/-- `grp[grp["rating"] >= pos_thresh].sort_values("timestamp")`. -/
def posItemsSorted (cfg : SamplerCfg) (grp : List RatingEvent) :
    List RatingEvent :=
  isort (fun a b => decide (a.timestamp ≤ b.timestamp))
    (grp.filter (fun r => decide (cfg.posThresh ≤ r.rating)))

/-- The positive-row loop: one label-1 row per sorted positive whose item is
in the metadata index (see the section comment on the `make_row` arity). -/
def posRowsOf (movies : List (ℤ × MovieMeta)) (cfg : SamplerCfg) (uid : ℤ)
    (grp : List RatingEvent) : List FeatureRow :=
  (posItemsSorted cfg grp).filterMap
    (fun r => if r.movieId ∈ moviesIndex movies then
        make_row uid r.movieId 1 (lookupMeta movies r.movieId)
      else none)

/-- The negative-row loop over `hard_neg + easy_neg` (see the section comment
on the `make_row` arity). -/
def negRowsOf (movies : List (ℤ × MovieMeta)) (uid : ℤ) (ids : List ℤ) :
    List FeatureRow :=
  ids.filterMap (fun it => make_row uid it 0 (lookupMeta movies it))

/-- One iteration of the per-user loop of `main`: skip (no rows, cursor
unchanged) when there is no qualifying positive or no metadata-backed
positive row; otherwise sample negatives, skip if none are usable, else emit
the positive rows followed by the negative rows. -/
def processUser (fuel : ℕ) (movies : List (ℤ × MovieMeta)) (pool : List ℤ)
    (cfg : SamplerCfg) (cands : List ℤ) (uid : ℤ) (grp : List RatingEvent)
    (stream : ℕ → ℕ) (pos : ℕ) : Option (List FeatureRow × ℕ) :=
  if (posItemsSorted cfg grp).isEmpty then some ([], pos)
  else
    let posR := posRowsOf movies cfg uid grp
    if posR.isEmpty then some ([], pos)
    else
      let seen := grp.map (fun r => r.movieId)
      match userNegs fuel movies pool cfg cands seen stream pos with
      | none => none
      | some (hard, easy, pos1) =>
        let negR := negRowsOf movies uid (hard ++ easy)
        if negR.isEmpty then some ([], pos1)
        else some (posR ++ negR, pos1)

/-- `ratings["movieId"].value_counts().index.values`: the distinct values by
descending count (ties by first occurrence; every statement below that
depends on the pool order uses distinct counts). -/
def vcLe (l : List ℤ) (a b : ℤ) : Bool :=
  decide (l.count b < l.count a ∨
    (l.count a = l.count b ∧ l.indexOf a ≤ l.indexOf b))

def valueCountsIndex (l : List ℤ) : List ℤ :=
  isort (vcLe l) (uniqueFirst l)

/-- Probability that one `rng.choice(pool, 1)` draw (uniform over the entries
of `pool`) returns `x`. -/
def drawProb (pool : List ℤ) (x : ℤ) : ℚ :=
  (pool.count x : ℚ) / pool.length

/-- `cand_map.get(uid, [])`. -/
def candOf (candMap : List (ℤ × List ℤ)) (u : ℤ) : List ℤ :=
  ((candMap.find? (fun p => p.1 == u)).map Prod.snd).getD []

/-- The `for uid, grp in ratings.groupby("userId")` loop: users in ascending
id order, a single stream cursor threaded through every sampling call. -/
def buildRowsGo (fuel : ℕ) (movies : List (ℤ × MovieMeta)) (pool : List ℤ)
    (cfg : SamplerCfg) (candMap : List (ℤ × List ℤ)) (stream : ℕ → ℕ) :
    List (ℤ × List RatingEvent) → ℕ → Option (List FeatureRow)
  | [], _ => some []
  | (u, grp) :: rest, pos =>
    match processUser fuel movies pool cfg (candOf candMap u) u grp stream pos
      with
    | none => none
    | some (rows, pos1) =>
      match buildRowsGo fuel movies pool cfg candMap stream rest pos1 with
      | none => none
      | some out => some (rows ++ out)

/-- The whole sampler: pool from the split's ratings, groupby over users,
rows accumulated in iteration order. -/
def buildRows (fuel : ℕ) (movies : List (ℤ × MovieMeta))
    (ratings : List RatingEvent) (candMap : List (ℤ × List ℤ))
    (cfg : SamplerCfg) (stream : ℕ → ℕ) : Option (List FeatureRow) :=
  buildRowsGo fuel movies (valueCountsIndex (ratings.map (fun r => r.movieId)))
    cfg candMap stream (groupByKey (fun r => r.userId) ratings) 0

/-- C2: the claim describes the label-1 rows `make_row` should emit, but both
`make_row` call sites in `main` pass five positional arguments
(`uid, it, label, meta, ts`/`None`) to the four-parameter signature
`def make_row(uid, item, label, meta)`, so the very first qualifying positive
raises `TypeError` instead of producing a row. -/
theorem C2_make_row_call_arity_mismatch :
    pythonCallBinds make_row_paramCount make_row_callArgCount = false := rfl

/-- C3: with `seen = {7}`, `pop_items = [7]`, `n = 1` — one fewer eligible
unseen item than requested — the rejection loop of `sample_easy_neg` never
finishes: for every finite iteration budget the loop is still running, under
every possible random stream.  No error is surfaced; the call simply does not
terminate, contradicting the claim. -/
theorem C3_sample_easy_neg_pool_exhaustion_never_returns
    (fuel pos : ℕ) (stream : ℕ → ℕ) :
    sample_easy_neg fuel [7] [7] 1 stream pos = none := by
  have hgo : ∀ (f p : ℕ), sampleEasyNegGo [7] 1 stream f [] [7] p = none := by
    intro f
    induction f with
    | zero => intro p; simp [sampleEasyNegGo]
    | succ f ih =>
      intro p
      have hchoice : choiceOne [7] (stream p) = 7 := by
        simp [choiceOne, Nat.mod_one]
      simp only [sampleEasyNegGo, List.length_nil, Nat.not_succ_le_zero,
        if_false, hchoice]
      simp only [List.mem_singleton, if_pos, if_true]
      exact ih (p + 1)
  simp [sample_easy_neg, hgo]

/-- C4: evaluation of the code's easy-negative draw at a concrete input.
With raw `movieId` column `[10, 10, 20]` the pool
(`value_counts().index.values`) is the distinct-item list `[10, 20]`, and one
`rng.choice(pool, 1)` draw — passed no weights — returns item 10 with
probability 1/2, whereas drawing proportionally to raw popularity (as the
claim and `sample_easy_neg`'s own docstring require) would return it with
probability 2/3. -/
theorem C4_easy_draw_uniform_not_popularity_weighted :
    valueCountsIndex [10, 10, 20] = [10, 20] ∧
    drawProb (valueCountsIndex [10, 10, 20]) 10 = 1 / 2 ∧
    (List.count (10 : ℤ) [10, 10, 20] : ℚ) /
      (List.length [(10 : ℤ), 10, 20] : ℚ) = 2 / 3 ∧
    (1 / 2 : ℚ) ≠ 2 / 3 := by
  have h : valueCountsIndex [10, 10, 20] = [10, 20] := by decide
  refine ⟨h, ?_, ?_, by norm_num⟩
  · rw [h]
    have hc : List.count (10 : ℤ) [10, 20] = 1 := by decide
    unfold drawProb
    rw [hc]
    norm_num
  · have hc : List.count (10 : ℤ) [10, 10, 20] = 2 := by decide
    rw [hc]
    norm_num

theorem sampleEasyNegGo_sound (pool : List ℤ) (n : ℕ) (stream : ℕ → ℕ) :
    ∀ (fuel : ℕ) (out seen : List ℤ) (pos : ℕ) (res : List ℤ × List ℤ × ℕ),
      sampleEasyNegGo pool n stream fuel out seen pos = some res →
      ∃ nw : List ℤ, res.1 = out ++ nw ∧ nw.Nodup ∧ ∀ i ∈ nw, i ∉ seen := by
  intro fuel
  induction fuel with
  | zero =>
    intro out seen pos res h
    unfold sampleEasyNegGo at h
    by_cases hle : n ≤ out.length
    · rw [if_pos hle] at h
      cases h
      exact ⟨[], by simp, List.nodup_nil, by simp⟩
    · rw [if_neg hle] at h
      cases h
  | succ fuel ih =>
    intro out seen pos res h
    unfold sampleEasyNegGo at h
    by_cases hle : n ≤ out.length
    · rw [if_pos hle] at h
      cases h
      exact ⟨[], by simp, List.nodup_nil, by simp⟩
    · rw [if_neg hle] at h
      by_cases hmem : choiceOne pool (stream pos) ∈ seen
      · rw [if_pos hmem] at h
        exact ih out seen (pos + 1) res h
      · rw [if_neg hmem] at h
        obtain ⟨nw, h1, h2, h3⟩ :=
          ih (out ++ [choiceOne pool (stream pos)])
            (choiceOne pool (stream pos) :: seen) (pos + 1) res h
        refine ⟨choiceOne pool (stream pos) :: nw, ?_, ?_, ?_⟩
        · rw [h1, List.append_assoc]
          rfl
        · exact List.nodup_cons.mpr
            ⟨fun hin => (h3 _ hin) (List.mem_cons_self _ _), h2⟩
        · intro i hi
          rcases List.mem_cons.mp hi with rfl | hi
          · exact hmem
          · exact fun hs => (h3 i hi) (List.mem_cons.mpr (Or.inr hs))

theorem sample_easy_neg_sound {fuel : ℕ} {seen pool : List ℤ} {n : ℕ}
    {stream : ℕ → ℕ} {pos : ℕ} {out seen2 : List ℤ} {pos2 : ℕ}
    (h : sample_easy_neg fuel seen pool n stream pos = some (out, seen2, pos2)) :
    out.Nodup ∧ ∀ i ∈ out, i ∉ seen := by
  unfold sample_easy_neg at h
  by_cases h0 : n = 0 ∨ pool = []
  · rw [if_pos h0] at h
    cases h
    exact ⟨List.nodup_nil, by simp⟩
  · rw [if_neg h0] at h
    obtain ⟨nw, h1, h2, h3⟩ :=
      sampleEasyNegGo_sound pool n stream fuel [] seen pos _ h
    simp only [List.nil_append] at h1
    subst h1
    exact ⟨h2, h3⟩

/-- C5 counterexample: user with ratings `{10}` (so `seen = {10}`), metadata
for items 10 and 20, candidates `[20]`, pool `[20, 10]`, `hardNegCount =
easyNegCount = 1`: the hard negatives are `[20]` and — because the easy draw
excludes only the copied rated-item set, never the hard negatives — the easy
negatives are also `[20]`.  The user's combined negatives `[20] ++ [20]` are
not pairwise distinct, refuting the claim that an easy negative can never
duplicate a hard negative. -/
theorem C5_counterexample :
    userNegs 5 [(10, ⟨1, 2, 3, 4, 5⟩), (20, ⟨6, 7, 8, 9, 10⟩)] [20, 10]
        ⟨1, 1, 4⟩ [20] [10] (fun _ => 0) 0 = some ([20], [20], 1) ∧
    ¬ (([20] ++ [20] : List ℤ).Nodup) :=
  ⟨by rfl, by decide⟩

/-- C5 amended: every sampled negative — hard, easy, or the fallback draw —
avoids the `seen` set (in the pipeline, the user's rated items), and the easy
negatives of one user are pairwise distinct among themselves; but the
exclusion set passed to `sample_easy_neg` is a copy of the rated-item set to
which the hard negatives were never added, so an easy negative can coincide
with a hard negative. -/
theorem C5_negatives_unseen_and_easy_nodup
    (fuel : ℕ) (movies : List (ℤ × MovieMeta)) (pool : List ℤ)
    (cfg : SamplerCfg) (cands seen : List ℤ) (stream : ℕ → ℕ) (pos : ℕ)
    (hard easy : List ℤ) (pos1 : ℕ)
    (h : userNegs fuel movies pool cfg cands seen stream pos =
      some (hard, easy, pos1)) :
    (∀ i ∈ hard, i ∉ seen) ∧ (∀ i ∈ easy, i ∉ seen) ∧ easy.Nodup := by
  have hhard : ∀ i ∈ hardNegOf cands seen (moviesIndex movies) cfg.hardNeg,
      i ∉ seen := by
    intro i hi
    have hmem := List.mem_of_mem_take hi
    exact (of_decide_eq_true (List.mem_filter.mp hmem).2).1
  simp only [userNegs] at h
  split at h
  next heq => exact absurd h (by simp)
  next ids seenX posX heq =>
    split at h
    · split at h
      next heq2 => exact absurd h (by simp)
      next fids seenY posY heq2 =>
        simp only [Option.some.injEq, Prod.mk.injEq] at h
        obtain ⟨h1, h2, h3⟩ := h
        subst h1
        subst h2
        have sound := sample_easy_neg_sound heq2
        refine ⟨hhard, ?_, sound.1.filter _⟩
        intro i hi
        exact sound.2 i (List.mem_filter.mp hi).1
    · simp only [Option.some.injEq, Prod.mk.injEq] at h
      obtain ⟨h1, h2, h3⟩ := h
      subst h1
      subst h2
      have sound := sample_easy_neg_sound heq
      refine ⟨hhard, ?_, sound.1.filter _⟩
      intro i hi
      exact sound.2 i (List.mem_filter.mp hi).1

/-- Witness for the C5 amended theorem at a concrete input. -/
theorem C5_negatives_unseen_and_easy_nodup_witness :
    (∀ i ∈ ([30] : List ℤ), i ∉ ([10] : List ℤ)) ∧
    (∀ i ∈ ([30] : List ℤ), i ∉ ([10] : List ℤ)) ∧
    ([30] : List ℤ).Nodup :=
  C5_negatives_unseen_and_easy_nodup 5
    [(10, ⟨1, 2, 3, 4, 5⟩), (30, ⟨6, 7, 8, 9, 10⟩)] [30, 10] ⟨1, 1, 4⟩
    [30] [10] (fun _ => 0) 0 [30] [30] 1 (by rfl)

theorem make_row_fields {uid item : ℤ} {label : ℕ} {meta : Option MovieMeta}
    {r : FeatureRow} (h : make_row uid item label meta = some r) :
    r.userId = uid ∧ r.movieId = item ∧ r.label = label := by
  cases meta with
  | none => exact absurd h (by simp [make_row])
  | some m =>
    have hr := Option.some.inj h
    rw [← hr]
    exact ⟨rfl, rfl, rfl⟩

theorem posRowsOf_fields {movies : List (ℤ × MovieMeta)} {cfg : SamplerCfg}
    {uid : ℤ} {grp : List RatingEvent} {r : FeatureRow}
    (hr : r ∈ posRowsOf movies cfg uid grp) :
    r.userId = uid ∧ r.label = 1 := by
  obtain ⟨x, _, hfx⟩ := List.mem_filterMap.mp hr
  by_cases hm : x.movieId ∈ moviesIndex movies
  · rw [if_pos hm] at hfx
    have hf := make_row_fields hfx
    exact ⟨hf.1, hf.2.2⟩
  · rw [if_neg hm] at hfx
    exact absurd hfx (by simp)

theorem negRowsOf_fields {movies : List (ℤ × MovieMeta)} {uid : ℤ}
    {ids : List ℤ} {r : FeatureRow} (hr : r ∈ negRowsOf movies uid ids) :
    r.userId = uid ∧ r.label = 0 := by
  obtain ⟨x, _, hfx⟩ := List.mem_filterMap.mp hr
  have hf := make_row_fields hfx
  exact ⟨hf.1, hf.2.2⟩

theorem processUser_userId {fuel : ℕ} {movies : List (ℤ × MovieMeta)}
    {pool : List ℤ} {cfg : SamplerCfg} {cands : List ℤ} {uid : ℤ}
    {grp : List RatingEvent} {stream : ℕ → ℕ} {pos : ℕ}
    {rows : List FeatureRow} {pos1 : ℕ}
    (h : processUser fuel movies pool cfg cands uid grp stream pos =
      some (rows, pos1)) :
    ∀ r ∈ rows, r.userId = uid := by
  simp only [processUser] at h
  split at h
  · simp only [Option.some.injEq, Prod.mk.injEq] at h
    obtain ⟨h1, _⟩ := h
    subst h1
    intro r hr
    cases hr
  · split at h
    · simp only [Option.some.injEq, Prod.mk.injEq] at h
      obtain ⟨h1, _⟩ := h
      subst h1
      intro r hr
      cases hr
    · split at h
      next => exact absurd h (by simp)
      next hard easy pos1' heq =>
        split at h
        · simp only [Option.some.injEq, Prod.mk.injEq] at h
          obtain ⟨h1, _⟩ := h
          subst h1
          intro r hr
          cases hr
        · simp only [Option.some.injEq, Prod.mk.injEq] at h
          obtain ⟨h1, _⟩ := h
          subst h1
          intro r hr
          rcases List.mem_append.mp hr with hp | hn
          · exact (posRowsOf_fields hp).1
          · exact (negRowsOf_fields hn).1

theorem buildRowsGo_sorted (fuel : ℕ) (movies : List (ℤ × MovieMeta))
    (pool : List ℤ) (cfg : SamplerCfg) (candMap : List (ℤ × List ℤ))
    (stream : ℕ → ℕ) :
    ∀ (gs : List (ℤ × List RatingEvent)) (pos : ℕ) (out : List FeatureRow),
      buildRowsGo fuel movies pool cfg candMap stream gs pos = some out →
      List.Pairwise (fun a b : ℤ × List RatingEvent => a.1 ≤ b.1) gs →
      (out.map FeatureRow.userId).Sorted (· ≤ ·) ∧
      ∀ v ∈ out.map FeatureRow.userId, ∃ g ∈ gs, v = g.1 := by
  intro gs
  induction gs with
  | nil =>
    intro pos out h _
    have h1 := Option.some.inj h
    subst h1
    exact ⟨List.sorted_nil, by simp⟩
  | cons g rest ih =>
    intro pos out h hpw
    obtain ⟨u, grp⟩ := g
    simp only [buildRowsGo] at h
    split at h
    next => exact absurd h (by simp)
    next rows pos1 heq =>
      split at h
      next => exact absurd h (by simp)
      next out' heq2 =>
        have hout := Option.some.inj h
        subst hout
        have hrows : ∀ r ∈ rows, r.userId = u := processUser_userId heq
        obtain ⟨hsorted', hmem'⟩ :=
          ih pos1 out' heq2 (List.pairwise_cons.mp hpw).2
        have hhead := (List.pairwise_cons.mp hpw).1
        constructor
        · rw [List.map_append]
          refine List.pairwise_append.mpr ⟨?_, hsorted', ?_⟩
          · apply List.pairwise_of_forall_mem_list
            intro a ha b hb
            obtain ⟨ra, hra, hraeq⟩ := List.mem_map.mp ha
            obtain ⟨rb, hrb, hrbeq⟩ := List.mem_map.mp hb
            rw [← hraeq, ← hrbeq, hrows ra hra, hrows rb hrb]
          · intro a ha b hb
            obtain ⟨ra, hra, hraeq⟩ := List.mem_map.mp ha
            obtain ⟨g', hg', hbeq⟩ := hmem' b hb
            rw [← hraeq, hrows ra hra, hbeq]
            exact hhead g' hg'
        · intro v hv
          rw [List.map_append] at hv
          rcases List.mem_append.mp hv with hv | hv
          · obtain ⟨ra, hra, hraeq⟩ := List.mem_map.mp hv
            exact ⟨(u, grp), List.mem_cons_self _ _,
              by rw [← hraeq, hrows ra hra]⟩
          · obtain ⟨g', hg', hveq⟩ := hmem' v hv
            exact ⟨g', List.mem_cons_of_mem _ hg', hveq⟩

/-- C9: the sampler is deterministic as a two-run property — with the same
random stream (fixed by the seed), the same ratings, candidates, metadata and
configuration, a second run returns exactly the rows of the first, in the same
order — and the per-user blocks are emitted in the canonical groupby order:
the user ids along the output are ascending.  The single stream cursor is
threaded sequentially through every per-user sampling call (`buildRowsGo`). -/
theorem C9_sampler_two_run_deterministic (fuel : ℕ)
    (movies1 movies2 : List (ℤ × MovieMeta))
    (ratings1 ratings2 : List RatingEvent)
    (candMap1 candMap2 : List (ℤ × List ℤ)) (cfg1 cfg2 : SamplerCfg)
    (stream1 stream2 : ℕ → ℕ) (out : List FeatureRow)
    (hmov : movies1 = movies2) (hrat : ratings1 = ratings2)
    (hcand : candMap1 = candMap2) (hcfg : cfg1 = cfg2)
    (hstream : stream1 = stream2)
    (hrun : buildRows fuel movies1 ratings1 candMap1 cfg1 stream1 = some out) :
    buildRows fuel movies2 ratings2 candMap2 cfg2 stream2 = some out ∧
    (out.map FeatureRow.userId).Sorted (· ≤ ·) := by
  subst hmov
  subst hrat
  subst hcand
  subst hcfg
  subst hstream
  refine ⟨hrun, ?_⟩
  unfold buildRows at hrun
  exact (buildRowsGo_sorted fuel movies1
    (valueCountsIndex (ratings1.map (fun r => r.movieId))) cfg1 candMap1
    stream1 (groupByKey (fun r => r.userId) ratings1) 0 out hrun
    (groupByKey_keys_pairwise _ _)).1

/-- Witness for C9 at a concrete input: three users, one of whom qualifies. -/
theorem C9_sampler_two_run_deterministic_witness :
    buildRows 5 [(10, ⟨1, 2, 3, 4, 5⟩), (20, ⟨6, 7, 8, 9, 10⟩)]
        [⟨1, 10, 5, 100⟩, ⟨2, 20, 1, 50⟩, ⟨3, 20, 1, 60⟩] [(1, [20])]
        ⟨1, 1, 4⟩ (fun _ => 0) =
      some [⟨1, 10, 1, 1, 2, 3, 4, 5⟩, ⟨1, 20, 0, 6, 7, 8, 9, 10⟩,
        ⟨1, 20, 0, 6, 7, 8, 9, 10⟩] ∧
    (([⟨1, 10, 1, 1, 2, 3, 4, 5⟩, ⟨1, 20, 0, 6, 7, 8, 9, 10⟩,
        ⟨1, 20, 0, 6, 7, 8, 9, 10⟩] : List FeatureRow).map
      FeatureRow.userId).Sorted (· ≤ ·) :=
  C9_sampler_two_run_deterministic 5 _ _ _ _ _ _ _ _ _ _ _
    rfl rfl rfl rfl rfl (by rfl)

theorem userNegs_hard_eq {fuel : ℕ} {movies : List (ℤ × MovieMeta)}
    {pool : List ℤ} {cfg : SamplerCfg} {cands seen : List ℤ}
    {stream : ℕ → ℕ} {pos : ℕ} {hard easy : List ℤ} {pos1 : ℕ}
    (h : userNegs fuel movies pool cfg cands seen stream pos =
      some (hard, easy, pos1)) :
    hard = hardNegOf cands seen (moviesIndex movies) cfg.hardNeg := by
  simp only [userNegs] at h
  split at h
  next => exact absurd h (by simp)
  next ids seenX posX heq =>
    split at h
    · split at h
      next => exact absurd h (by simp)
      next fids seenY posY heq2 =>
        simp only [Option.some.injEq, Prod.mk.injEq] at h
        exact h.1.symm
    · simp only [Option.some.injEq, Prod.mk.injEq] at h
      exact h.1.symm

theorem posItemsSorted_timestamps (cfg : SamplerCfg)
    (grp : List RatingEvent) :
    ((posItemsSorted cfg grp).map RatingEvent.timestamp).Sorted (· ≤ ·) := by
  unfold posItemsSorted
  rw [List.Sorted, List.pairwise_map]
  have h := @isort_pairwise RatingEvent
    (fun a b : RatingEvent => decide (a.timestamp ≤ b.timestamp))
    (by intro a b c hab hbc
        exact decide_eq_true_eq.mpr
          (le_trans (of_decide_eq_true hab) (of_decide_eq_true hbc)))
    (by intro a b
        rcases le_total a.timestamp b.timestamp with h | h
        · exact Or.inl (decide_eq_true_eq.mpr h)
        · exact Or.inr (decide_eq_true_eq.mpr h))
    (grp.filter (fun r => decide (cfg.posThresh ≤ r.rating)))
  exact h.imp (fun hab => of_decide_eq_true hab)

/-- C10: a non-empty user block consists of the label-1 rows first — built
from the user's qualifying positives in ascending timestamp order — followed
by the label-0 rows, with the rows of all hard negatives (`hardNegOf`: the
first `hardNeg` eligible ids in candidate-list order) before the rows of all
easy negatives (in draw order, as returned by `userNegs`). -/
theorem C10_user_block_internal_order (fuel : ℕ)
    (movies : List (ℤ × MovieMeta)) (pool : List ℤ) (cfg : SamplerCfg)
    (cands : List ℤ) (uid : ℤ) (grp : List RatingEvent) (stream : ℕ → ℕ)
    (pos : ℕ) (rows : List FeatureRow) (pos1 : ℕ)
    (h : processUser fuel movies pool cfg cands uid grp stream pos =
      some (rows, pos1))
    (hne : rows ≠ []) :
    ∃ hard easy,
      userNegs fuel movies pool cfg cands (grp.map (fun r => r.movieId))
        stream pos = some (hard, easy, pos1) ∧
      rows = posRowsOf movies cfg uid grp ++
        (negRowsOf movies uid hard ++ negRowsOf movies uid easy) ∧
      (∀ r ∈ posRowsOf movies cfg uid grp, r.label = 1) ∧
      (∀ r ∈ negRowsOf movies uid hard ++ negRowsOf movies uid easy,
        r.label = 0) ∧
      ((posItemsSorted cfg grp).map RatingEvent.timestamp).Sorted (· ≤ ·) ∧
      hard = hardNegOf cands (grp.map (fun r => r.movieId))
        (moviesIndex movies) cfg.hardNeg := by
  simp only [processUser] at h
  split at h
  · simp only [Option.some.injEq, Prod.mk.injEq] at h
    exact absurd h.1.symm hne
  · split at h
    · simp only [Option.some.injEq, Prod.mk.injEq] at h
      exact absurd h.1.symm hne
    · split at h
      next => exact absurd h (by simp)
      next hard easy pos1' heq =>
        split at h
        · simp only [Option.some.injEq, Prod.mk.injEq] at h
          exact absurd h.1.symm hne
        · simp only [Option.some.injEq, Prod.mk.injEq] at h
          obtain ⟨h1, h2⟩ := h
          subst h2
          refine ⟨hard, easy, heq, ?_, ?_, ?_,
            posItemsSorted_timestamps cfg grp, userNegs_hard_eq heq⟩
          · rw [← h1]
            unfold negRowsOf
            rw [List.filterMap_append]
          · intro r hr
            exact (posRowsOf_fields hr).2
          · intro r hr
            rcases List.mem_append.mp hr with hn | hn
            · exact (negRowsOf_fields hn).2
            · exact (negRowsOf_fields hn).2

/-- Witness for C10 at a concrete input (one user, one positive, one hard and
one easy negative — the latter two coinciding, as C5 records). -/
theorem C10_user_block_internal_order_witness :
    ∃ hard easy,
      userNegs 5 [(10, ⟨1, 2, 3, 4, 5⟩), (20, ⟨6, 7, 8, 9, 10⟩)] [20, 10]
        ⟨1, 1, 4⟩ [20] (([⟨1, 10, 5, 100⟩] : List RatingEvent).map
          (fun r => r.movieId)) (fun _ => 0) 0 = some (hard, easy, 1) ∧
      ([⟨1, 10, 1, 1, 2, 3, 4, 5⟩, ⟨1, 20, 0, 6, 7, 8, 9, 10⟩,
          ⟨1, 20, 0, 6, 7, 8, 9, 10⟩] : List FeatureRow) =
        posRowsOf [(10, ⟨1, 2, 3, 4, 5⟩), (20, ⟨6, 7, 8, 9, 10⟩)] ⟨1, 1, 4⟩ 1
            [⟨1, 10, 5, 100⟩] ++
          (negRowsOf [(10, ⟨1, 2, 3, 4, 5⟩), (20, ⟨6, 7, 8, 9, 10⟩)] 1 hard ++
           negRowsOf [(10, ⟨1, 2, 3, 4, 5⟩), (20, ⟨6, 7, 8, 9, 10⟩)] 1 easy) ∧
      (∀ r ∈ posRowsOf [(10, ⟨1, 2, 3, 4, 5⟩), (20, ⟨6, 7, 8, 9, 10⟩)]
          ⟨1, 1, 4⟩ 1 [⟨1, 10, 5, 100⟩], r.label = 1) ∧
      (∀ r ∈ negRowsOf [(10, ⟨1, 2, 3, 4, 5⟩), (20, ⟨6, 7, 8, 9, 10⟩)] 1
            hard ++
          negRowsOf [(10, ⟨1, 2, 3, 4, 5⟩), (20, ⟨6, 7, 8, 9, 10⟩)] 1 easy,
        r.label = 0) ∧
      ((posItemsSorted ⟨1, 1, 4⟩ [⟨1, 10, 5, 100⟩]).map
        RatingEvent.timestamp).Sorted (· ≤ ·) ∧
      hard = hardNegOf [20] (([⟨1, 10, 5, 100⟩] : List RatingEvent).map
          (fun r => r.movieId))
        (moviesIndex [(10, ⟨1, 2, 3, 4, 5⟩), (20, ⟨6, 7, 8, 9, 10⟩)]) 1 :=
  C10_user_block_internal_order 5
    [(10, ⟨1, 2, 3, 4, 5⟩), (20, ⟨6, 7, 8, 9, 10⟩)] [20, 10] ⟨1, 1, 4⟩ [20] 1
    [⟨1, 10, 5, 100⟩] (fun _ => 0) 0
    [⟨1, 10, 1, 1, 2, 3, 4, 5⟩, ⟨1, 20, 0, 6, 7, 8, 9, 10⟩,
      ⟨1, 20, 0, 6, 7, 8, 9, 10⟩] 1 (by rfl) (by simp)

/-! ## `src/06_train_lgbm.py`: ranking evaluation (`eval_metrics`, `_dcg`) -/

/-- Key order of the stable ascending argsort: by value, ties by original
index.  NumPy's default introsort equals this stable order on arrays shorter
than its insertion-sort threshold; every tie-sensitive statement below is
about such small arrays. -/
def argsortLe (xs : List ℚ) (i j : ℕ) : Bool :=
  decide (xs.getD i 0 < xs.getD j 0 ∨ (xs.getD i 0 = xs.getD j 0 ∧ i ≤ j))

/-- `y_pred.argsort()` (ascending). -/
def argsortAsc (xs : List ℚ) : List ℕ :=
  isort (argsortLe xs) (List.range xs.length)

/-- `y_pred.argsort()[::-1]`. -/
def argsortDesc (xs : List ℚ) : List ℕ :=
  (argsortAsc xs).reverse

/-- NumPy fancy indexing `ys[idxs]` on a label array. -/
def indexList (ys idxs : List ℕ) : List ℕ :=
  idxs.map (fun i => ys.getD i 0)

/-- `np.cumsum`. -/
def cumsumGo (acc : ℕ) : List ℕ → List ℕ
  | [] => []
  | x :: xs => (acc + x) :: cumsumGo (acc + x) xs

def cumsum (l : List ℕ) : List ℕ := cumsumGo 0 l

/-- A binary NumPy operation on two 1-d arrays, with NumPy's broadcasting
rule: equal lengths operate elementwise, a length-1 operand is stretched, and
any other combination raises `ValueError`. -/
def npBroadcast2 {α β γ : Type} (f : α → β → γ) (a : List α) (b : List β) :
    Except String (List γ) :=
  if a.length = b.length then .ok (List.zipWith f a b)
  else
    match a, b with
    | [x], _ => .ok (b.map (fun y => f x y))
    | _, [y] => .ok (a.map (fun x => f x y))
    | _, _ => .error "ValueError: operands could not be broadcast together"

/-- The MAP@k block of `eval_metrics` for one group:
`hits = y_true[topk]`, `cumsum / (np.arange(k) + 1)`, `(… * hits).sum()`
normalized by `min(y_true.sum(), k)`.  Note the divisor array has length `k`
while `cumsum(hits)` has the group's (possibly smaller) length. -/
def mapAtK (k : ℕ) (y_true : List ℕ) (y_pred : List ℚ) : Except String ℚ :=
  let topk := (argsortDesc y_pred).take k
  let hits := indexList y_true topk
  if hits.sum = 0 then .ok 0
  else do
    let prec ← npBroadcast2 (fun c d => (c : ℚ) / (d : ℚ)) (cumsum hits)
      ((List.range k).map (fun i => i + 1))
    let prods ← npBroadcast2 (fun p (h : ℕ) => p * (h : ℚ)) prec hits
    .ok (prods.sum / ((min y_true.sum k : ℕ) : ℚ))

/-- `_dcg(rels) = (rels / np.log2(np.arange(2, size + 2))).sum()`, with the
irrational discounts `1 / log2(i + 2)` supplied as an abstract weight
function `w`; statements quantify over `w`. -/
def dcgW (w : ℕ → ℚ) (rels : List ℕ) : ℚ :=
  (rels.enum.map (fun p => (p.2 : ℚ) * w p.1)).sum

/-- The NDCG@k block of `eval_metrics` for one group: DCG of the predicted
top-k labels over the IDCG of the group's own sorted labels truncated to k,
`0` when the IDCG is not positive. -/
def ndcgAtK (w : ℕ → ℚ) (k : ℕ) (y_true : List ℕ) (y_pred : List ℚ) : ℚ :=
  let topk := (argsortDesc y_pred).take k
  let dcg := dcgW w (indexList y_true topk)
  let ideal := ((isort (fun a b : ℕ => decide (a ≤ b)) y_true).reverse).take k
  let idcg := dcgW w ideal
  if 0 < idcg then dcg / idcg else 0

/-- The per-group body of `eval_metrics`: a positive-less group contributes
`(0, 0)`; otherwise MAP@k (which can raise) and NDCG@k. -/
def evalGroup (w : ℕ → ℚ) (k : ℕ) (y_true : List ℕ) (y_pred : List ℚ) :
    Except String (ℚ × ℚ) :=
  if y_true.sum = 0 then .ok (0, 0)
  else do
    let m ← mapAtK k y_true y_pred
    .ok (m, ndcgAtK w k y_true y_pred)

/-- Error-propagating traversal (the first group that raises aborts the
whole evaluation loop). -/
def traverseExcept {α β : Type} (f : α → Except String β) :
    List α → Except String (List β)
  | [] => .ok []
  | x :: xs =>
    match f x, traverseExcept f xs with
    | .ok y, .ok ys => .ok (y :: ys)
    | .error e, _ => .error e
    | .ok _, .error e => .error e

/-- One row of the predicted validation frame (`userId, label, pred`). -/
structure PredRow where
  userId : ℤ
  label : ℕ
  pred : ℚ
  deriving DecidableEq

/-- `eval_metrics(df_pred, k)`: per-group values in ascending `userId` order,
then unweighted means. -/
def eval_metrics (w : ℕ → ℚ) (k : ℕ) (rows : List PredRow) :
    Except String (ℚ × ℚ) :=
  match traverseExcept
    (fun ug : ℤ × List PredRow =>
      evalGroup w k (ug.2.map (fun r => r.label)) (ug.2.map (fun r => r.pred)))
    (groupByKey (fun r : PredRow => r.userId) rows) with
  | .error e => .error e
  | .ok pairs =>
    .ok ((pairs.map Prod.fst).sum / (pairs.length : ℚ),
      (pairs.map Prod.snd).sum / (pairs.length : ℚ))

/-- C1: evaluation of `eval_metrics` at the claim's own scenario — one group
of three rows whose single positive has the strictly highest score, with the
default `k = 10`.  `cumsum(hits)` has length 3 but `np.arange(k) + 1` has
length 10, so the MAP block raises a broadcast `ValueError` instead of
returning MAP@10 = NDCG@10 = 1.0: the computation is not well-defined for
groups with fewer than `k` rows (for any discount weights `w`). -/
theorem C1_eval_metrics_small_group_broadcast_error (w : ℕ → ℚ) :
    eval_metrics w 10 [⟨1, 1, 3⟩, ⟨1, 0, 2⟩, ⟨1, 0, 1⟩] =
      .error "ValueError: operands could not be broadcast together" := by
  rfl

/-- C6 counterexample: two rows with equal predicted score.  The code's
`argsort()[::-1]` reverses the stable ascending argsort, so the ranking is
`[1, 0]` — the *later* row is ranked first — not the `[0, 1]` the claim's
(−score, original row order) rule requires. -/
theorem C6_counterexample :
    argsortDesc [(2 : ℚ), 2] = [1, 0] ∧ ([1, 0] : List ℕ) ≠ [0, 1] :=
  ⟨by rfl, by decide⟩

/-- C6 amended: the top-k ordering is the reverse of the stable ascending
argsort keyed by (score, original row order), so it is still a deterministic
function of the (score, position) pairs, but for two rows with equal
predicted score the row that appears *later* in the group is ranked first.
(The group-size bound keeps the statement within the regime where NumPy's
default argsort is its stable insertion sort.) -/
theorem C6_equal_scores_later_row_ranked_first (xs : List ℚ) (i j : ℕ)
    (hij : i < j) (hj : j < xs.length) (_hlen : xs.length ≤ 15)
    (heq : xs.getD i 0 = xs.getD j 0) :
    ∃ p q : Fin (argsortDesc xs).length, p < q ∧
      (argsortDesc xs).get p = j ∧ (argsortDesc xs).get q = i := by
  have hi : i < xs.length := lt_trans hij hj
  have htrans : ∀ a b c, argsortLe xs a b = true → argsortLe xs b c = true →
      argsortLe xs a c = true := by
    intro a b c hab hbc
    have pab := of_decide_eq_true hab
    have pbc := of_decide_eq_true hbc
    apply decide_eq_true_eq.mpr
    rcases pab with h1 | ⟨h1, h1'⟩ <;> rcases pbc with h2 | ⟨h2, h2'⟩
    · exact Or.inl (lt_trans h1 h2)
    · exact Or.inl (h2 ▸ h1)
    · exact Or.inl (h1 ▸ h2)
    · exact Or.inr ⟨h1.trans h2, le_trans h1' h2'⟩
  have htotal : ∀ a b, argsortLe xs a b = true ∨ argsortLe xs b a = true := by
    intro a b
    rcases lt_trichotomy (xs.getD a 0) (xs.getD b 0) with h | h | h
    · exact Or.inl (decide_eq_true_eq.mpr (Or.inl h))
    · rcases le_total a b with hab | hab
      · exact Or.inl (decide_eq_true_eq.mpr (Or.inr ⟨h, hab⟩))
      · exact Or.inr (decide_eq_true_eq.mpr (Or.inr ⟨h.symm, hab⟩))
    · exact Or.inr (decide_eq_true_eq.mpr (Or.inl h))
  have hpw : List.Pairwise (fun a b => argsortLe xs a b = true)
      (argsortAsc xs) := isort_pairwise htrans htotal _
  have hpwd : List.Pairwise (fun a b => argsortLe xs b a = true)
      (argsortDesc xs) := by
    unfold argsortDesc
    exact List.pairwise_reverse.mpr hpw
  have hperm : (argsortAsc xs).Perm (List.range xs.length) :=
    isort_perm _ _
  have hmemj : j ∈ argsortDesc xs := by
    unfold argsortDesc
    exact List.mem_reverse.mpr (hperm.mem_iff.mpr (List.mem_range.mpr hj))
  have hmemi : i ∈ argsortDesc xs := by
    unfold argsortDesc
    exact List.mem_reverse.mpr (hperm.mem_iff.mpr (List.mem_range.mpr hi))
  obtain ⟨p, hp⟩ := List.mem_iff_get.mp hmemj
  obtain ⟨q, hq⟩ := List.mem_iff_get.mp hmemi
  have hne : p ≠ q := by
    intro hpq
    rw [hpq, hq] at hp
    omega
  rcases lt_or_gt_of_ne hne with hpq | hqp
  · exact ⟨p, q, hpq, hp, hq⟩
  · exfalso
    have hrel := List.pairwise_iff_get.mp hpwd q p hqp
    rw [hp, hq] at hrel
    rcases of_decide_eq_true hrel with h | ⟨_, h⟩
    · exact lt_irrefl _ (heq ▸ h)
    · omega

/-- Witness for the C6 amended theorem: scores `[1, 1]`; row 1 (the later
row) is ranked before row 0. -/
theorem C6_equal_scores_later_row_ranked_first_witness :
    ∃ p q : Fin (argsortDesc [(1 : ℚ), 1]).length, p < q ∧
      (argsortDesc [(1 : ℚ), 1]).get p = 1 ∧
      (argsortDesc [(1 : ℚ), 1]).get q = 0 :=
  C6_equal_scores_later_row_ranked_first [(1 : ℚ), 1] 0 1 (by decide)
    (by decide) (by decide) (by rfl)
